import Mathlib

/-!
Shallow embedding of the core reconciliation logic of `seller.py`.

Conventions of the embedding:
* Supplier rows (`watch_remnants` entries) are records with the three string
  fields the core reads: `Код` (`code`), `Количество` (`quantity`),
  `Цена` (`price`).  `str()` on a string is the identity, so the
  stringification in the source is absorbed into the string-typed fields.
* Python's fallible operations (`int(...)`, a generator raising on first
  `next`) are modelled with `Option`: `none` is a raised exception.
* Python lists are Lean lists; `list.remove(x)` is `List.erase` (both drop
  the first occurrence); `x in lst` is list membership.
* `create_stocks` mutates its `offer_ids` argument in place via
  `offer_ids.remove(...)`; the loop is modelled by `stocksLoop`, which
  returns both the accumulated stock entries and the final state of the
  caller's list, so the aliasing effect is observable (`offerIdsAfter`).
* The unbounded `while True` pagination loop of `get_offer_ids` is modelled
  with explicit fuel: `none` means the loop did not finish within `fuel`
  iterations.
-/

namespace Seller

/-- One row of the supplier feed, with the three fields the core reads. -/
structure WatchRecord where
  code : String
  quantity : String
  price : String
deriving DecidableEq, Repr

/-- A stock update dict `{"offer_id": ..., "stock": ...}` from `create_stocks`. -/
structure StockUpdate where
  offer_id : String
  stock : Int
deriving DecidableEq, Repr

/-- A price update dict built by `create_prices` (line 255-261 of seller.py). -/
structure PriceUpdate where
  auto_action_enabled : String
  currency_code : String
  offer_id : String
  old_price : String
  price : String
deriving DecidableEq, Repr

/-- The whitespace characters stripped by Python's `int()` around a numeric
string (ASCII subset of `str.strip`). -/
def isPySpace (c : Char) : Bool :=
  c == ' ' || c == '\t' || c == '\n' || c == '\r' || c == '\x0b' || c == '\x0c'

/-- Value of a list of decimal digit characters, most significant first. -/
def digitsToNat (l : List Char) : Nat :=
  l.foldl (fun acc c => 10 * acc + (c.toNat - '0'.toNat)) 0

/-- Core of Python's `int()` on a whitespace-stripped character list: an
optional sign followed by a nonempty run of decimal digits. -/
def pyIntCore (l : List Char) : Option Int :=
  match l with
  | [] => none
  | c :: rest =>
    if c = '-' then
      if rest ≠ [] ∧ rest.all Char.isDigit then some (-(digitsToNat rest : Int)) else none
    else if c = '+' then
      if rest ≠ [] ∧ rest.all Char.isDigit then some (digitsToNat rest : Int) else none
    else if (c :: rest).all Char.isDigit then some (digitsToNat (c :: rest) : Int)
    else none

/-- Python's `int(s)` for a decimal string: surrounding whitespace stripped,
optional sign, nonempty digit run; `none` models the raised `ValueError`. -/
def pyInt (s : String) : Option Int :=
  pyIntCore (((s.data.dropWhile isPySpace).reverse.dropWhile isPySpace).reverse)

/-- The quantity normalisation of `create_stocks` (lines 221-227):
`">10"` becomes `100`, `"1"` becomes `0`, anything else goes through
`int(...)`. -/
def parse_quantity (count : String) : Option Int :=
  if count = ">10" then some 100
  else if count = "1" then some 0
  else pyInt count

/-- The first loop of `create_stocks` (lines 219-229): scan the supplier
records; a record whose code is in the current working list emits a stock
entry and removes that code from the working list (`offer_ids.remove`).
Returns the accumulated entries together with the final working list, which
is the state of the caller's `offer_ids` after the call (the source mutates
the argument in place). -/
def stocksLoop : List WatchRecord → List String → Option (List StockUpdate × List String)
  | [], ids => some ([], ids)
  | w :: ws, ids =>
    if w.code ∈ ids then
      match parse_quantity w.quantity with
      | none => none
      | some st =>
        match stocksLoop ws (ids.erase w.code) with
        | none => none
        | some (rest, rem) => some (⟨w.code, st⟩ :: rest, rem)
    else stocksLoop ws ids

/-- `create_stocks` (lines 203-233): matched entries from the scan, then a
zero-fill entry for every offer id left in the working list. -/
def create_stocks (ws : List WatchRecord) (ids : List String) : Option (List StockUpdate) :=
  (stocksLoop ws ids).map (fun p => p.1 ++ p.2.map (fun i => ⟨i, 0⟩))

/-- The state of the caller's `offer_ids` list after `create_stocks` returns:
the source removes each matched code from the argument itself. -/
def offerIdsAfter (ws : List WatchRecord) (ids : List String) : Option (List String) :=
  (stocksLoop ws ids).map Prod.snd

/-- `price.split(".")[0]`: the characters before the first `.` of the string. -/
def beforeDot : List Char → List Char
  | [] => []
  | c :: cs => if c = '.' then [] else c :: beforeDot cs

/-- `price_conversion` (line 285): `re.sub("[^0-9]", "", price.split(".")[0])`
— keep only the ASCII digits of the part before the first dot. -/
def price_conversion (price : String) : String :=
  String.mk ((beforeDot price.data).filter Char.isDigit)

/-- The price dict literal of `create_prices` (lines 255-261). -/
def mkPrice (w : WatchRecord) : PriceUpdate :=
  ⟨"UNKNOWN", "RUB", w.code, "0", price_conversion w.price⟩

/-- `create_prices` (lines 236-263): one entry per record whose code is in
`offer_ids`; the list is only read, never mutated. -/
def create_prices : List WatchRecord → List String → List PriceUpdate
  | [], _ => []
  | w :: ws, ids =>
    if w.code ∈ ids then mkPrice w :: create_prices ws ids
    else create_prices ws ids

/-- The records of the scan that match (ghost version of the first loop of
`create_stocks`, ignoring quantity parsing): exactly the records `create_stocks`
applies the quantity parser to. -/
def matchedRecords : List WatchRecord → List String → List WatchRecord
  | [], _ => []
  | w :: ws, ids =>
    if w.code ∈ ids then w :: matchedRecords ws (ids.erase w.code)
    else matchedRecords ws ids

/-- `lst[i : i + k]` for nonnegative bounds. -/
def pySlice (lst : List α) (i k : Nat) : List α :=
  (lst.drop i).take k

/-- `divide` (lines 288-314): `for i in range(0, len(lst), n): yield lst[i:i+n]`.
`range` with step `0` raises `ValueError` (none); with a negative step and
`stop ≥ start = 0` it is empty; with positive step `n` it has
`ceil(len/n) = (len + n - 1) / n` elements `0, n, 2n, ...`. -/
def divide (lst : List α) (n : Int) : Option (List (List α)) :=
  if n = 0 then none
  else if n < 0 then some []
  else
    some ((List.range ((lst.length + n.toNat - 1) / n.toNat)).map
      (fun i => pySlice lst (i * n.toNat) n.toNat))

/-- An item of the paginated product listing (the fields `get_offer_ids`
reads). -/
structure CatalogItem where
  product_id : Nat
  offer_id : String
deriving DecidableEq, Repr

/-- One page returned by the listing collaborator `get_product_list`. -/
structure PageResult where
  items : List CatalogItem
  total : Nat
  last_id : String

/-- The `while True` loop of `get_offer_ids` (lines 80-86), with fuel against
the collaborator never reaching `total`: call the collaborator on the current
cursor, extend the accumulator, stop when the reported total equals the
accumulated count. -/
def get_product_loop (page : String → PageResult) :
    Nat → String → List CatalogItem → Option (List CatalogItem)
  | 0, _, _ => none
  | fuel + 1, lastId, acc =>
    let p := page lastId
    let acc2 := acc ++ p.items
    if p.total = acc2.length then some acc2
    else get_product_loop page fuel p.last_id acc2

/-- `get_offer_ids` (lines 59-90): run the pagination loop from the empty
cursor and empty accumulator, then project every item to its `offer_id`. -/
def get_offer_ids (page : String → PageResult) (fuel : Nat) : Option (List String) :=
  (get_product_loop page fuel "" []).map (List.map (fun p => p.offer_id))

/-- Mock catalog items numbered `a, a+1, ..., a+n-1`. -/
def mockItems (a n : Nat) : List CatalogItem :=
  (List.range n).map (fun i => ⟨a + i, toString (a + i)⟩)

/-- Mock listing collaborator: three pages of sizes 1000, 1000 and 250, all
reporting `total = 2250`. -/
def mockPage (cursor : String) : PageResult :=
  if cursor = "" then ⟨mockItems 0 1000, 2250, "p1"⟩
  else if cursor = "p1" then ⟨mockItems 1000 1000, 2250, "p2"⟩
  else if cursor = "p2" then ⟨mockItems 2000 250, 2250, "p3"⟩
  else ⟨[], 2250, "end"⟩

/-- A collaborator that never supplies items yet reports a positive total:
the pagination loop can never satisfy its stop condition against it. -/
def emptyPage (_ : String) : PageResult := ⟨[], 5, ""⟩

/-- All items of the three mock pages, in arrival order. -/
def allMockItems : List CatalogItem :=
  mockItems 0 1000 ++ mockItems 1000 1000 ++ mockItems 2000 250

/-! ### Helper lemmas -/

theorem digit_not_space {c : Char} (h : c.isDigit = true) : isPySpace c = false := by
  by_contra hc
  have hc2 : isPySpace c = true := by
    cases h2 : isPySpace c
    · exact absurd h2 hc
    · rfl
  simp only [isPySpace, Bool.or_eq_true, beq_iff_eq] at hc2
  rcases hc2 with ((((rfl | rfl) | rfl) | rfl) | rfl) | rfl <;> exact absurd h (by decide)

theorem dropWhile_space_of_digits {l : List Char} (h : ∀ c ∈ l, c.isDigit = true) :
    l.dropWhile isPySpace = l := by
  cases l with
  | nil => rfl
  | cons c cs =>
    have : isPySpace c = false := digit_not_space (h c (by simp))
    simp [List.dropWhile, this]

theorem pyInt_of_digits {l : List Char} (hne : l ≠ []) (h : ∀ c ∈ l, c.isDigit = true) :
    pyInt (String.mk l) = some (digitsToNat l : Int) := by
  have hrev : ∀ c ∈ l.reverse, c.isDigit = true := by
    intro c hc
    exact h c (List.mem_reverse.mp hc)
  rw [pyInt]
  show pyIntCore ((((String.mk l).data.dropWhile isPySpace).reverse.dropWhile
      isPySpace).reverse) = _
  have hdata : (String.mk l).data = l := rfl
  rw [hdata, dropWhile_space_of_digits h, dropWhile_space_of_digits hrev,
    List.reverse_reverse]
  cases l with
  | nil => exact absurd rfl hne
  | cons c cs =>
    have hc : c.isDigit = true := h c (by simp)
    have hminus : ¬ c = '-' := by
      intro hcm
      rw [hcm] at hc
      exact absurd hc (by decide)
    have hplus : ¬ c = '+' := by
      intro hcp
      rw [hcp] at hc
      exact absurd hc (by decide)
    have hall : (c :: cs).all Char.isDigit = true := List.all_eq_true.mpr h
    rw [pyIntCore]
    rw [if_neg hminus, if_neg hplus, if_pos hall]

theorem beforeDot_eq_takeWhile (l : List Char) :
    beforeDot l = l.takeWhile (fun c => !(c == '.')) := by
  induction l with
  | nil => rfl
  | cons c cs ih =>
    by_cases h : c = '.'
    · subst h
      simp [beforeDot, List.takeWhile]
    · have hb : (c == '.') = false := by
        simp [h]
      simp [beforeDot, List.takeWhile, h, hb, ih]

theorem create_prices_eq_filter_map (ws : List WatchRecord) (ids : List String) :
    create_prices ws ids = (ws.filter (fun w => decide (w.code ∈ ids))).map mkPrice := by
  induction ws with
  | nil => rfl
  | cons w ws ih =>
    by_cases h : w.code ∈ ids
    · simp [create_prices, List.filter_cons, h, ih]
    · simp [create_prices, List.filter_cons, h, ih]

theorem create_prices_count (ws : List WatchRecord) (ids : List String) (c : String) :
    ((create_prices ws ids).map (fun e => e.offer_id)).count c
      = if c ∈ ids then (ws.filter (fun w => decide (w.code = c))).length else 0 := by
  induction ws with
  | nil => simp [create_prices]
  | cons w ws ih =>
    by_cases h : w.code ∈ ids
    · by_cases hc : w.code = c
      · subst hc
        simp [create_prices, h, mkPrice, List.count_cons, List.filter_cons, ih]
      · have hcb : ¬ c = w.code := fun he => hc he.symm
        simp [create_prices, h, mkPrice, List.count_cons, List.filter_cons, hc, hcb, ih]
    · by_cases hc : w.code = c
      · subst hc
        simp [create_prices, h, List.filter_cons, ih]
      · simp [create_prices, h, List.filter_cons, hc, ih]

theorem stocksLoop_perm :
    ∀ (ws : List WatchRecord) (ids : List String) (s : List StockUpdate)
      (rem : List String), stocksLoop ws ids = some (s, rem) →
      ((s.map (fun e => e.offer_id)) ++ rem).Perm ids := by
  intro ws
  induction ws with
  | nil =>
    intro ids s rem h
    rw [stocksLoop] at h
    cases h
    simp
  | cons w ws ih =>
    intro ids s rem h
    rw [stocksLoop] at h
    by_cases hm : w.code ∈ ids
    · rw [if_pos hm] at h
      cases hq : parse_quantity w.quantity with
      | none =>
        rw [hq] at h
        exact Option.noConfusion h
      | some st =>
        rw [hq] at h
        cases hl : stocksLoop ws (ids.erase w.code) with
        | none =>
          rw [hl] at h
          exact Option.noConfusion h
        | some pr =>
          obtain ⟨rest, rem2⟩ := pr
          rw [hl] at h
          cases h
          have hperm := ih (ids.erase w.code) rest rem hl
          have h2 : (w.code :: (rest.map (fun e => e.offer_id) ++ rem)).Perm
              (w.code :: ids.erase w.code) := hperm.cons w.code
          exact h2.trans (List.perm_cons_erase hm).symm
    · rw [if_neg hm] at h
      exact ih ids s rem h

theorem stocksLoop_rem_sublist :
    ∀ (ws : List WatchRecord) (ids : List String) (s : List StockUpdate)
      (rem : List String), stocksLoop ws ids = some (s, rem) → rem.Sublist ids := by
  intro ws
  induction ws with
  | nil =>
    intro ids s rem h
    rw [stocksLoop] at h
    cases h
    exact List.Sublist.refl ids
  | cons w ws ih =>
    intro ids s rem h
    rw [stocksLoop] at h
    by_cases hm : w.code ∈ ids
    · rw [if_pos hm] at h
      cases hq : parse_quantity w.quantity with
      | none =>
        rw [hq] at h
        exact Option.noConfusion h
      | some st =>
        rw [hq] at h
        cases hl : stocksLoop ws (ids.erase w.code) with
        | none =>
          rw [hl] at h
          exact Option.noConfusion h
        | some pr =>
          obtain ⟨rest, rem2⟩ := pr
          rw [hl] at h
          cases h
          exact (ih (ids.erase w.code) rest rem hl).trans (List.erase_sublist _ _)
    · rw [if_neg hm] at h
      exact ih ids s rem h

theorem create_prices_mono (ws : List WatchRecord) {ids2 ids : List String}
    (h : ∀ c, c ∈ ids2 → c ∈ ids) :
    (create_prices ws ids2).Sublist (create_prices ws ids) := by
  induction ws with
  | nil => exact List.Sublist.refl _
  | cons w ws ih =>
    by_cases h2 : w.code ∈ ids2
    · have h1 : w.code ∈ ids := h w.code h2
      simp only [create_prices, if_pos h1, if_pos h2]
      exact ih.cons₂ (mkPrice w)
    · by_cases h1 : w.code ∈ ids
      · simp only [create_prices, if_pos h1, if_neg h2]
        exact ih.cons (mkPrice w)
      · simp only [create_prices, if_neg h1, if_neg h2]
        exact ih

theorem stocksLoop_first_match :
    ∀ (ws : List WatchRecord) (ids : List String) (s : List StockUpdate)
      (rem : List String) (c : String) (w : WatchRecord), c ∈ ids →
      stocksLoop ws ids = some (s, rem) →
      ws.find? (fun w2 => w2.code == c) = some w →
      ∃ q, parse_quantity w.quantity = some q ∧ (⟨c, q⟩ : StockUpdate) ∈ s := by
  intro ws
  induction ws with
  | nil =>
    intro ids s rem c w _ _ hf
    exact Option.noConfusion hf
  | cons w0 ws ih =>
    intro ids s rem c w hc h hf
    rw [stocksLoop] at h
    by_cases hm : w0.code ∈ ids
    · rw [if_pos hm] at h
      cases hq : parse_quantity w0.quantity with
      | none =>
        rw [hq] at h
        exact Option.noConfusion h
      | some st =>
        rw [hq] at h
        cases hl : stocksLoop ws (ids.erase w0.code) with
        | none =>
          rw [hl] at h
          exact Option.noConfusion h
        | some pr =>
          obtain ⟨rest, rem2⟩ := pr
          rw [hl] at h
          cases h
          by_cases hcode : w0.code = c
          · rw [List.find?_cons_of_pos _ (by simp [hcode])] at hf
            cases hf
            refine ⟨st, hq, ?_⟩
            rw [← hcode]
            exact List.mem_cons_self _ _
          · rw [List.find?_cons_of_neg _ (by simp [hcode])] at hf
            have hc2 : c ∈ ids.erase w0.code :=
              (List.mem_erase_of_ne (fun he => hcode he.symm)).mpr hc
            obtain ⟨q, hq2, hmem⟩ := ih (ids.erase w0.code) rest rem c w hc2 hl hf
            exact ⟨q, hq2, List.mem_cons_of_mem _ hmem⟩
    · rw [if_neg hm] at h
      have hcode : ¬ w0.code = c := fun he => hm (he ▸ hc)
      rw [List.find?_cons_of_neg _ (by simp [hcode])] at hf
      exact ih ids s rem c w hc h hf

theorem stocksLoop_none_iff :
    ∀ (ws : List WatchRecord) (ids : List String),
      stocksLoop ws ids = none ↔
        ∃ w ∈ matchedRecords ws ids, parse_quantity w.quantity = none := by
  intro ws
  induction ws with
  | nil =>
    intro ids
    simp [stocksLoop, matchedRecords]
  | cons w ws ih =>
    intro ids
    rw [stocksLoop, matchedRecords]
    by_cases hm : w.code ∈ ids
    · rw [if_pos hm, if_pos hm]
      cases hq : parse_quantity w.quantity with
      | none =>
        simp [hq]
      | some st =>
        cases hl : stocksLoop ws (ids.erase w.code) with
        | none =>
          simp only [List.mem_cons]
          constructor
          · intro _
            obtain ⟨w2, hw2, hq2⟩ := (ih (ids.erase w.code)).mp hl
            exact ⟨w2, Or.inr hw2, hq2⟩
          · intro _
            trivial
        | some pr =>
          obtain ⟨rest, rem2⟩ := pr
          simp only [List.mem_cons]
          constructor
          · intro h
            exact Option.noConfusion h
          · rintro ⟨w2, hw2 | hw2, hq2⟩
            · rw [hw2] at hq2
              rw [hq2] at hq
              exact Option.noConfusion hq
            · have : stocksLoop ws (ids.erase w.code) = none :=
                (ih (ids.erase w.code)).mpr ⟨w2, hw2, hq2⟩
              rw [this] at hl
              exact Option.noConfusion hl
    · rw [if_neg hm, if_neg hm]
      exact ih ids

theorem matchedRecords_code_mem :
    ∀ (ws : List WatchRecord) (ids : List String) (w : WatchRecord),
      w ∈ matchedRecords ws ids → w.code ∈ ids := by
  intro ws
  induction ws with
  | nil =>
    intro ids w h
    simp [matchedRecords] at h
  | cons w0 ws ih =>
    intro ids w h
    rw [matchedRecords] at h
    by_cases hm : w0.code ∈ ids
    · rw [if_pos hm] at h
      rcases List.mem_cons.mp h with rfl | h2
      · exact hm
      · exact List.mem_of_mem_erase (ih (ids.erase w0.code) w h2)
    · rw [if_neg hm] at h
      exact ih ids w h

theorem map_comp_zero (rem : List String) :
    List.map ((fun e : StockUpdate => e.offer_id) ∘ fun i => (⟨i, 0⟩ : StockUpdate))
      rem = rem := by
  induction rem with
  | nil => rfl
  | cons a r ih => simp only [List.map_cons, Function.comp_apply, ih]

theorem length_filter_eq_count_map {α β : Type} [DecidableEq β] (f : α → β)
    (l : List α) (c : β) :
    (l.filter (fun e => decide (f e = c))).length = (l.map f).count c := by
  induction l with
  | nil => rfl
  | cons e l ih =>
    by_cases h : f e = c
    · simp [List.filter_cons, List.count_cons, h, ih]
    · have h2 : ¬ c = f e := fun he => h he.symm
      simp [List.filter_cons, List.count_cons, h, h2, ih]

/-- Recursive chunking: take the first `k` elements, recurse on the rest.
For `0 < k` this is what the slice enumeration of `divide` produces
(`divide_chunk_aux`). -/
def chunksRec (k : Nat) (l : List α) : List (List α) :=
  match l with
  | [] => []
  | a :: t => (a :: t).take k :: chunksRec k (t.drop (k - 1))
termination_by l.length
decreasing_by
  simp only [List.length_drop, List.length_cons]
  omega

theorem chunksRec_nil (k : Nat) : chunksRec k ([] : List α) = [] := by
  rw [chunksRec]

theorem chunksRec_cons (k : Nat) (a : α) (t : List α) :
    chunksRec k (a :: t) = (a :: t).take k :: chunksRec k (t.drop (k - 1)) := by
  rw [chunksRec]

theorem drop_pred_cons (k : Nat) (hk : 0 < k) (a : α) (t : List α) :
    t.drop (k - 1) = (a :: t).drop k := by
  cases k with
  | zero => omega
  | succ j => simp [List.drop_succ_cons]

theorem divide_chunk_aux (k : Nat) (hk : 0 < k) :
    ∀ (n : Nat) (lst : List α), lst.length ≤ n →
      (List.range ((lst.length + k - 1) / k)).map (fun i => pySlice lst (i * k) k)
        = chunksRec k lst := by
  intro n
  induction n with
  | zero =>
    intro lst hlen
    have hnil : lst = [] := List.eq_nil_of_length_eq_zero (Nat.le_zero.mp hlen)
    subst hnil
    have h0 : (List.length ([] : List α) + k - 1) / k = 0 := by
      simp only [List.length_nil]
      exact Nat.div_eq_of_lt (by omega)
    rw [h0, chunksRec_nil]
    rfl
  | succ n ih =>
    intro lst hlen
    cases lst with
    | nil =>
      have h0 : (List.length ([] : List α) + k - 1) / k = 0 := by
        simp only [List.length_nil]
        exact Nat.div_eq_of_lt (by omega)
      rw [h0, chunksRec_nil]
      rfl
    | cons a t =>
      have hm : ((a :: t).length + k - 1) / k = t.length / k + 1 := by
        have he : (a :: t).length + k - 1 = t.length + k := by
          simp only [List.length_cons]
          omega
        rw [he, Nat.add_div_right _ hk]
      have hdk := drop_pred_cons k hk a t
      have hrl : (t.drop (k - 1)).length = t.length - (k - 1) := by
        simp [List.length_drop]
      have hdiv : ((t.drop (k - 1)).length + k - 1) / k = t.length / k := by
        by_cases hcase : k - 1 ≤ t.length
        · have he2 : (t.drop (k - 1)).length + k - 1 = t.length := by omega
          rw [he2]
        · rw [Nat.div_eq_of_lt (by omega), Nat.div_eq_of_lt (by omega)]
      have htail := ih (t.drop (k - 1)) (by rw [hrl]; simp at hlen ⊢; omega)
      rw [hdiv] at htail
      rw [hm, List.range_succ_eq_map, List.map_cons, List.map_map]
      have hhead : pySlice (a :: t) (0 * k) k = (a :: t).take k := by
        simp [pySlice]
      have hshift : ∀ i : Nat,
          pySlice (a :: t) (Nat.succ i * k) k = pySlice (t.drop (k - 1)) (i * k) k := by
        intro i
        simp only [pySlice, hdk, List.drop_drop, Nat.succ_mul]
        rw [Nat.add_comm (i * k) k]
      have hmapeq : ((List.range (t.length / k)).map
            ((fun i => pySlice (a :: t) (i * k) k) ∘ Nat.succ))
          = (List.range (t.length / k)).map (fun i => pySlice (t.drop (k - 1)) (i * k) k) := by
        apply List.map_congr_left
        intro i _
        exact hshift i
      rw [hhead, hmapeq, htail]
      exact (chunksRec_cons k a t).symm

theorem chunksRec_join (k : Nat) (hk : 0 < k) :
    ∀ (n : Nat) (lst : List α), lst.length ≤ n → (chunksRec k lst).flatten = lst := by
  intro n
  induction n with
  | zero =>
    intro lst hlen
    have hnil : lst = [] := List.eq_nil_of_length_eq_zero (Nat.le_zero.mp hlen)
    subst hnil
    rw [chunksRec_nil]
    rfl
  | succ n ih =>
    intro lst hlen
    cases lst with
    | nil =>
      rw [chunksRec_nil]
      rfl
    | cons a t =>
      rw [chunksRec_cons]
      rw [List.flatten_cons]
      rw [ih (t.drop (k - 1)) (by simp [List.length_drop] at hlen ⊢; omega)]
      rw [drop_pred_cons k hk a t, List.take_append_drop]

theorem chunksRec_struct (k : Nat) (hk : 0 < k) :
    ∀ (n : Nat) (lst : List α), lst.length ≤ n → lst ≠ [] →
      ∃ front c, chunksRec k lst = front ++ [c]
        ∧ (∀ x ∈ front, x.length = k) ∧ 1 ≤ c.length ∧ c.length ≤ k := by
  intro n
  induction n with
  | zero =>
    intro lst hlen hne
    exact absurd (List.eq_nil_of_length_eq_zero (Nat.le_zero.mp hlen)) hne
  | succ n ih =>
    intro lst hlen hne
    cases lst with
    | nil => exact absurd rfl hne
    | cons a t =>
      rw [chunksRec_cons]
      by_cases hrest : t.drop (k - 1) = []
      · rw [hrest]
        refine ⟨[], (a :: t).take k, by rw [chunksRec_nil]; rfl, by simp, ?_, ?_⟩
        · rw [List.length_take]
          exact Nat.le_min.mpr ⟨hk, by simp⟩
        · rw [List.length_take]
          exact Nat.min_le_left _ _
      · obtain ⟨front, c, heq, hfront, h1, h2⟩ :=
          ih (t.drop (k - 1)) (by simp [List.length_drop] at hlen ⊢; omega) hrest
        refine ⟨(a :: t).take k :: front, c, by rw [heq]; rfl, ?_, h1, h2⟩
        intro x hx
        rcases List.mem_cons.mp hx with rfl | hx2
        · rw [List.length_take]
          have hklen : k ≤ (a :: t).length := by
            have hgt : ¬ t.length ≤ k - 1 := fun h2 => hrest (List.drop_eq_nil_iff.mpr h2)
            simp only [List.length_cons]
            omega
          exact Nat.min_eq_left hklen
        · exact hfront x hx2

theorem chunksRec_small (k : Nat) (hk : 0 < k) (lst : List α) (hne : lst ≠ [])
    (hle : lst.length ≤ k) : chunksRec k lst = [lst] := by
  cases lst with
  | nil => exact absurd rfl hne
  | cons a t =>
    rw [chunksRec_cons]
    have h1 : t.drop (k - 1) = [] := by
      rw [List.drop_eq_nil_iff]
      simp only [List.length_cons] at hle
      omega
    rw [h1, chunksRec_nil]
    have h2 : (a :: t).take k = a :: t :=
      List.take_of_length_le hle
    rw [h2]

/-! ### Claim theorems -/

/-- C1: for every supplier record list and duplicate-free offer-id list, a
successful `create_stocks` run returns one stock entry per offer id: the
output length equals the offer-id count, the output offer ids are a
permutation of the input offer ids, and each input offer id occurs exactly
once among them (matched records contribute their entry, unmatched offer ids
their zero-fill entry). -/
theorem create_stocks_spec :
    ∀ (ws : List WatchRecord) (ids : List String) (st : List StockUpdate),
      ids.Nodup → create_stocks ws ids = some st →
      st.length = ids.length
      ∧ (st.map (fun e => e.offer_id)).Perm ids
      ∧ (st.map (fun e => e.offer_id)).Nodup
      ∧ (∀ c, c ∈ st.map (fun e => e.offer_id) ↔ c ∈ ids)
      ∧ (∀ c ∈ ids, (st.map (fun e => e.offer_id)).count c = 1) := by
  intro ws ids st hnd h
  rw [create_stocks] at h
  cases hl : stocksLoop ws ids with
  | none =>
    rw [hl] at h
    exact Option.noConfusion h
  | some pr =>
    obtain ⟨s, rem⟩ := pr
    rw [hl] at h
    cases h
    have hperm0 := stocksLoop_perm ws ids s rem hl
    have hmap : (s ++ rem.map (fun i => (⟨i, 0⟩ : StockUpdate))).map
        (fun e => e.offer_id) = s.map (fun e => e.offer_id) ++ rem := by
      simp only [List.map_append, List.map_map, map_comp_zero]
    have hperm : ((s ++ rem.map (fun i => (⟨i, 0⟩ : StockUpdate))).map
        (fun e => e.offer_id)).Perm ids := by
      rw [hmap]
      exact hperm0
    refine ⟨?_, hperm, hperm.nodup_iff.mpr hnd, fun c => hperm.mem_iff, ?_⟩
    · have := hperm.length_eq
      rw [List.length_map] at this
      exact this
    · intro c hc
      rw [hperm.count_eq]
      exact List.count_eq_one_of_mem hnd hc

/-- C1 witness: a matched record plus a zero-filled leftover offer id. -/
theorem create_stocks_spec_witness :
    ([⟨"A", 100⟩, ⟨"B", 0⟩] : List StockUpdate).length
      = (["A", "B"] : List String).length :=
  (create_stocks_spec [⟨"A", ">10", "9."⟩] ["A", "B"] [⟨"A", 100⟩, ⟨"B", 0⟩]
    (by decide) (by decide)).1

/-- C2 counterexample: `create_stocks` does not work on a copy — after the
call the caller's `offer_ids` has lost the matched code `"A"`, and running
`create_prices` on that mutated list gives a different (here empty) price
list than running it first on the original. -/
theorem create_stocks_no_copy_counterexample :
    offerIdsAfter [⟨"A", "5", "9."⟩] ["A"] = some []
    ∧ ¬ offerIdsAfter [⟨"A", "5", "9."⟩] ["A"] = some ["A"]
    ∧ ¬ create_prices [⟨"A", "5", "9."⟩] []
        = create_prices [⟨"A", "5", "9."⟩] ["A"] := by
  exact ⟨by decide, by decide, by decide⟩

/-- C2 amended: `create_stocks` mutates the caller's `offer_ids` in place,
removing every matched code, so the list left to the caller is the working
remainder — a sublist of the original whose concatenation with the emitted
offer ids is a permutation of the original; `create_prices` only reads the
list it is given, so running it after `create_stocks` yields a sublist of
(generally fewer entries than) the price list obtained by running it first. -/
theorem create_stocks_mutation_spec :
    ∀ (ws : List WatchRecord) (ids rem : List String) (s : List StockUpdate),
      stocksLoop ws ids = some (s, rem) →
      offerIdsAfter ws ids = some rem
      ∧ rem.Sublist ids
      ∧ ((s.map (fun e => e.offer_id)) ++ rem).Perm ids
      ∧ (create_prices ws rem).Sublist (create_prices ws ids) := by
  intro ws ids rem s h
  refine ⟨?_, stocksLoop_rem_sublist ws ids s rem h, stocksLoop_perm ws ids s rem h,
    create_prices_mono ws (fun c hc => (stocksLoop_rem_sublist ws ids s rem h).subset hc)⟩
  rw [offerIdsAfter, h]
  rfl

/-- C2 amended witness: the mutated list at the counterexample input. -/
theorem create_stocks_mutation_spec_witness :
    offerIdsAfter [⟨"A", "5", "9."⟩] ["A"] = some [] :=
  (create_stocks_mutation_spec [⟨"A", "5", "9."⟩] ["A"] [] [⟨"A", 5⟩] (by decide)).1

/-- C3: when exactly two records carry the same code `c`, present in the
duplicate-free offer-id list, `create_prices` emits two entries for `c` while
`create_stocks` emits exactly one stock entry for `c`, whose stock value
comes from the first record with code `c` in scan order (`find?` order):
first match wins. -/
theorem duplicate_code_spec :
    ∀ (ws : List WatchRecord) (ids : List String) (c : String) (w : WatchRecord)
      (st : List StockUpdate),
      ids.Nodup → c ∈ ids →
      (ws.filter (fun w2 => decide (w2.code = c))).length = 2 →
      ws.find? (fun w2 => w2.code == c) = some w →
      create_stocks ws ids = some st →
      ((create_prices ws ids).filter (fun e => decide (e.offer_id = c))).length = 2
      ∧ ∃ q, parse_quantity w.quantity = some q
          ∧ st.filter (fun e => decide (e.offer_id = c)) = [⟨c, q⟩] := by
  intro ws ids c w st hnd hc htwo hf h
  constructor
  · rw [length_filter_eq_count_map (fun e => e.offer_id) (create_prices ws ids) c,
      create_prices_count ws ids c, if_pos hc, htwo]
  · rw [create_stocks] at h
    cases hl : stocksLoop ws ids with
    | none =>
      rw [hl] at h
      exact Option.noConfusion h
    | some pr =>
      obtain ⟨s, rem⟩ := pr
      rw [hl] at h
      cases h
      obtain ⟨q, hq, hmem⟩ := stocksLoop_first_match ws ids s rem c w hc hl hf
      refine ⟨q, hq, ?_⟩
      have hperm0 := stocksLoop_perm ws ids s rem hl
      have hmap : (s ++ rem.map (fun i => (⟨i, 0⟩ : StockUpdate))).map
          (fun e => e.offer_id) = s.map (fun e => e.offer_id) ++ rem := by
        simp only [List.map_append, List.map_map, map_comp_zero]
      have hlen : ((s ++ rem.map (fun i => (⟨i, 0⟩ : StockUpdate))).filter
          (fun e => decide (e.offer_id = c))).length = 1 := by
        rw [length_filter_eq_count_map, hmap, hperm0.count_eq]
        exact List.count_eq_one_of_mem hnd hc
      have hmemf : (⟨c, q⟩ : StockUpdate) ∈
          (s ++ rem.map (fun i => (⟨i, 0⟩ : StockUpdate))).filter
            (fun e => decide (e.offer_id = c)) :=
        List.mem_filter.mpr ⟨List.mem_append_left _ hmem, by simp⟩
      obtain ⟨a, ha⟩ := List.length_eq_one.mp hlen
      rw [ha] at hmemf ⊢
      rw [List.mem_singleton.mp hmemf]

/-- C3 witness: two records with code `"A"`, quantities `"3"` and `"7"`. -/
theorem duplicate_code_spec_witness :
    ((create_prices [⟨"A", "3", "1."⟩, ⟨"A", "7", "2."⟩] ["A", "B"]).filter
      (fun e => decide (e.offer_id = "A"))).length = 2 :=
  (duplicate_code_spec [⟨"A", "3", "1."⟩, ⟨"A", "7", "2."⟩] ["A", "B"] "A"
    ⟨"A", "3", "1."⟩ [⟨"A", 3⟩, ⟨"B", 0⟩] (by decide) (by decide) (by decide)
    (by decide) (by decide)).1

/-- C10: both reconciliation operations touch only matched records:
`create_stocks` fails exactly when some dynamically matched record (an element
of `matchedRecords`, each of which has its code in the original offer-id
list) has an unparseable quantity, and a record whose code is not in the
offer-id list is entirely inert — dropping it changes neither the stock nor
the price output, whatever its quantity and price fields hold
(`create_prices` is total on string-typed fields, so it never fails). -/
theorem parse_failure_spec :
    ∀ (ws : List WatchRecord) (ids : List String),
      (create_stocks ws ids = none ↔
        ∃ w ∈ matchedRecords ws ids, parse_quantity w.quantity = none)
      ∧ (∀ w ∈ matchedRecords ws ids, w.code ∈ ids)
      ∧ (∀ w : WatchRecord, ¬ w.code ∈ ids →
          create_stocks (w :: ws) ids = create_stocks ws ids
          ∧ create_prices (w :: ws) ids = create_prices ws ids) := by
  intro ws ids
  refine ⟨?_, fun w hw => matchedRecords_code_mem ws ids w hw, ?_⟩
  · rw [create_stocks, Option.map_eq_none']
    exact stocksLoop_none_iff ws ids
  · intro w hw
    constructor
    · rw [create_stocks, create_stocks, stocksLoop, if_neg hw]
    · rw [create_prices, if_neg hw]

set_option maxRecDepth 8000 in
/-- C5: the catalog enumerator starts from the empty cursor and accumulator
and stops exactly when the accumulated item count equals the
collaborator-reported total: every successful run ends on a page whose
`total` equals the result's length; against the three-page mock
(sizes 1000, 1000, 250, total 2250) it succeeds with exactly 3 calls —
fuel 2 yields none, fuel 3 yields the offer ids of all 2250 accumulated
items — and against a collaborator that never supplies items while
reporting a nonzero total it returns none for every fuel bound, i.e. the
unbounded source loop never terminates. -/
theorem get_offer_ids_spec :
    get_product_loop mockPage 3 "" [] = some allMockItems
    ∧ get_offer_ids mockPage 3 = some (allMockItems.map (fun p => p.offer_id))
    ∧ (allMockItems.map (fun p => p.offer_id)).length = 2250
    ∧ get_offer_ids mockPage 2 = none
    ∧ (∀ (page : String → PageResult) (fuel : Nat) (s : String)
        (acc out : List CatalogItem), get_product_loop page fuel s acc = some out →
        ∃ s2, (page s2).total = out.length)
    ∧ (∀ page : String → PageResult, (∀ s, (page s).items = []) →
        (∀ s, (page s).total ≠ 0) →
        ∀ (fuel : Nat) (s : String), get_product_loop page fuel s [] = none) := by
  have hlen : ∀ a n : Nat, (mockItems a n).length = n := by
    intro a n
    simp [mockItems]
  have hp0 : mockPage "" = ⟨mockItems 0 1000, 2250, "p1"⟩ := by
    rw [mockPage, if_pos rfl]
  have hp1 : mockPage "p1" = ⟨mockItems 1000 1000, 2250, "p2"⟩ := by
    rw [mockPage, if_neg (by decide), if_pos rfl]
  have hp2 : mockPage "p2" = ⟨mockItems 2000 250, 2250, "p3"⟩ := by
    rw [mockPage, if_neg (by decide), if_neg (by decide), if_pos rfl]
  have hA : get_product_loop mockPage 3 "" [] = some allMockItems := by
    show get_product_loop mockPage (2 + 1) "" [] = some allMockItems
    rw [get_product_loop, hp0, List.nil_append, if_neg (by rw [hlen]; decide)]
    show get_product_loop mockPage (1 + 1) "p1" (mockItems 0 1000) = some allMockItems
    rw [get_product_loop, hp1,
      if_neg (by rw [List.length_append, hlen, hlen]; decide)]
    show get_product_loop mockPage (0 + 1) "p2"
        (mockItems 0 1000 ++ mockItems 1000 1000) = some allMockItems
    rw [get_product_loop, hp2,
      if_pos (by rw [List.length_append, List.length_append, hlen, hlen, hlen])]
    rw [allMockItems, List.append_assoc]
  refine ⟨hA, ?_, ?_, ?_, ?_, ?_⟩
  · rw [get_offer_ids, hA]
    rfl
  · simp [allMockItems, hlen]
  · rw [get_offer_ids]
    have hB : get_product_loop mockPage 2 "" [] = none := by
      show get_product_loop mockPage (1 + 1) "" [] = none
      rw [get_product_loop, hp0, List.nil_append, if_neg (by rw [hlen]; decide)]
      show get_product_loop mockPage (0 + 1) "p1" (mockItems 0 1000) = none
      rw [get_product_loop, hp1,
        if_neg (by rw [List.length_append, hlen, hlen]; decide)]
      rfl
    rw [hB]
    rfl
  · intro page fuel
    induction fuel with
    | zero =>
      intro s acc out h
      exact Option.noConfusion h
    | succ n ihn =>
      intro s acc out h
      simp only [get_product_loop] at h
      by_cases hc : (page s).total = (acc ++ (page s).items).length
      · rw [if_pos hc] at h
        cases h
        exact ⟨s, hc⟩
      · rw [if_neg hc] at h
        exact ihn (page s).last_id (acc ++ (page s).items) out h
  · intro page hitems hn fuel
    induction fuel with
    | zero =>
      intro s
      rfl
    | succ n ihn =>
      intro s
      simp only [get_product_loop]
      rw [if_neg (by rw [hitems s]; simpa using hn s)]
      rw [hitems s]
      exact ihn (page s).last_id

/-- C5 witness: the stop-condition clause applied to the successful mock run,
and the divergence clause applied to an item-less collaborator. -/
theorem get_offer_ids_spec_witness :
    (∃ s2, (mockPage s2).total = allMockItems.length)
    ∧ get_product_loop emptyPage 4 "" [] = none := by
  refine ⟨get_offer_ids_spec.2.2.2.2.1 mockPage 3 "" [] allMockItems
    get_offer_ids_spec.1, get_offer_ids_spec.2.2.2.2.2 emptyPage
    (fun s => rfl) (fun s => (by decide : (5 : Nat) ≠ 0)) 4 ""⟩

/-- C10 witness: an unmatched record with garbage in both fields is dropped
without affecting either output. -/
theorem parse_failure_spec_witness :
    create_stocks [⟨"Z", "garbage", "x"⟩, ⟨"A", "2", "3."⟩] ["A"]
      = create_stocks [⟨"A", "2", "3."⟩] ["A"]
    ∧ create_prices [⟨"Z", "garbage", "x"⟩, ⟨"A", "2", "3."⟩] ["A"]
      = create_prices [⟨"A", "2", "3."⟩] ["A"] :=
  (parse_failure_spec [⟨"A", "2", "3."⟩] ["A"]).2.2 ⟨"Z", "garbage", "x"⟩ (by decide)

/-- C6: quantity parsing maps `">10"` to `100`, `"1"` to `0`, and every other
input to its value as a base-10 integer literal (so any nonempty all-digit
string other than `"1"` parses to its positional value, and `"7"` parses
to `7`), failing (`none`) on an invalid integer string such as `"abc"`. -/
theorem parse_quantity_spec :
    parse_quantity ">10" = some 100
    ∧ parse_quantity "1" = some 0
    ∧ parse_quantity "7" = some 7
    ∧ parse_quantity "abc" = none
    ∧ ∀ l : List Char, l ≠ [] → (∀ c ∈ l, c.isDigit = true) → l ≠ ['1'] →
        parse_quantity (String.mk l) = some (digitsToNat l : Int) := by
  refine ⟨by decide, by decide, by decide, by decide, ?_⟩
  intro l hne hdig hne1
  have h1 : ¬ String.mk l = ">10" := by
    intro h
    have hdt : l = ['>', '1', '0'] := congrArg String.data h
    have : ('>').isDigit = true := hdig '>' (by rw [hdt]; simp)
    exact absurd this (by decide)
  have h2 : ¬ String.mk l = "1" := by
    intro h
    exact hne1 (congrArg String.data h)
  rw [parse_quantity, if_neg h1, if_neg h2]
  exact pyInt_of_digits hne hdig

/-- C6 witness: the general digit-string clause applied to `"42"`. -/
theorem parse_quantity_spec_witness :
    parse_quantity (String.mk ['4', '2']) = some (digitsToNat ['4', '2'] : Int) :=
  parse_quantity_spec.2.2.2.2 ['4', '2'] (by decide) (by decide) (by decide)

/-- C7: `price_conversion` keeps exactly the ASCII digits of the part of its
input before the first `.`; on the spec's examples it sends
`"5'990.00 руб."` to `"5990"`, `"12."` to `"12"` and `"руб."` to the empty
string (returned normally, not an error). -/
theorem price_conversion_spec :
    (∀ s : String, price_conversion s =
        String.mk ((s.data.takeWhile (fun c => !(c == '.'))).filter Char.isDigit))
    ∧ price_conversion "5\x27990.00 руб." = "5990"
    ∧ price_conversion "12." = "12"
    ∧ price_conversion "руб." = "" := by
  refine ⟨fun s => ?_, by decide, by decide, by decide⟩
  rw [price_conversion, beforeDot_eq_takeWhile]

/-- C7 witness: the general clause applied to a concrete string. -/
theorem price_conversion_spec_witness :
    price_conversion "a1.2" =
      String.mk ((("a1.2" : String).data.takeWhile (fun c => !(c == '.'))).filter
        Char.isDigit) :=
  price_conversion_spec.1 "a1.2"

/-- C4: `create_prices` emits exactly one entry per supplier record whose code
is in the offer-id set — the entry being the dict
`{auto_action_enabled: "UNKNOWN", currency_code: "RUB", offer_id: code,
old_price: "0", price: price_conversion(record.price)}` (that is `mkPrice`) —
so the output is the matched-record sublist mapped through `mkPrice`, the
offer-id multiplicity of a code equals its matching-record count, and an
offer id matching no record gets no entry (no zero-fill pass). -/
theorem create_prices_spec :
    ∀ (ws : List WatchRecord) (ids : List String),
      create_prices ws ids = (ws.filter (fun w => decide (w.code ∈ ids))).map mkPrice
      ∧ (∀ e ∈ create_prices ws ids,
          e.offer_id ∈ ids ∧ e.currency_code = "RUB" ∧ e.old_price = "0"
          ∧ e.auto_action_enabled = "UNKNOWN"
          ∧ ∃ w ∈ ws, w.code ∈ ids ∧ e = mkPrice w)
      ∧ (∀ c, ((create_prices ws ids).map (fun e => e.offer_id)).count c
          = if c ∈ ids then (ws.filter (fun w => decide (w.code = c))).length else 0) := by
  intro ws ids
  refine ⟨create_prices_eq_filter_map ws ids, ?_, create_prices_count ws ids⟩
  intro e he
  rw [create_prices_eq_filter_map] at he
  obtain ⟨w, hw, rfl⟩ := List.mem_map.mp he
  have hw2 := List.mem_filter.mp hw
  have hmem : w.code ∈ ids := of_decide_eq_true hw2.2
  exact ⟨hmem, rfl, rfl, rfl, w, hw2.1, hmem, rfl⟩

/-- C4 witness: the filter-map equation at a concrete feed with a duplicate
matched code, an unmatched record and an unmatched offer id. -/
theorem create_prices_spec_witness :
    create_prices [⟨"A", "1", "5."⟩, ⟨"Z", "1", "6."⟩, ⟨"A", "1", "7."⟩] ["A", "B"]
      = ([⟨"A", "1", "5."⟩, ⟨"Z", "1", "6."⟩, ⟨"A", "1", "7."⟩].filter
          (fun w => decide (w.code ∈ (["A", "B"] : List String)))).map mkPrice :=
  (create_prices_spec [⟨"A", "1", "5."⟩, ⟨"Z", "1", "6."⟩, ⟨"A", "1", "7."⟩]
    ["A", "B"]).1

/-- C8: for every positive size `k`, `divide` succeeds and yields the
contiguous chunks of the list in original order: their concatenation is the
list, every chunk before the last has length exactly `k`, the last has
length in `[1, k]`, the empty list yields zero chunks, and a size exceeding
the length yields the single chunk equal to the whole list. -/
theorem divide_spec :
    ∀ (α : Type) (lst : List α) (k : Nat), 0 < k →
      ∃ cs, divide lst (k : Int) = some cs
        ∧ cs.flatten = lst
        ∧ (lst = [] → cs = [])
        ∧ (lst ≠ [] → ∃ (front : List (List α)) (c : List α), cs = front ++ [c]
            ∧ (∀ x ∈ front, x.length = k) ∧ 1 ≤ c.length ∧ c.length ≤ k)
        ∧ (lst.length < k → lst ≠ [] → cs = [lst]) := by
  intro α lst k hk
  have hk0 : ¬ (k : Int) = 0 := by
    intro h
    omega
  have hkneg : ¬ (k : Int) < 0 := by omega
  have htn : (k : Int).toNat = k := Int.toNat_natCast k
  refine ⟨chunksRec k lst, ?_, chunksRec_join k hk lst.length lst le_rfl, ?_, ?_, ?_⟩
  · rw [divide, if_neg hk0, if_neg hkneg, htn]
    rw [divide_chunk_aux k hk lst.length lst le_rfl]
  · intro h
    subst h
    exact chunksRec_nil k
  · intro h
    exact chunksRec_struct k hk lst.length lst le_rfl h
  · intro hlt hne
    exact chunksRec_small k hk lst hne (le_of_lt hlt)

/-- C8 witness: the spec's own example, chunking `[1..8]` by 2. -/
theorem divide_spec_witness :
    ∃ cs, divide ([1, 2, 3, 4, 5, 6, 7, 8] : List Nat) ((2 : Nat) : Int) = some cs
      ∧ cs.flatten = [1, 2, 3, 4, 5, 6, 7, 8]
      ∧ (([1, 2, 3, 4, 5, 6, 7, 8] : List Nat) = [] → cs = [])
      ∧ (([1, 2, 3, 4, 5, 6, 7, 8] : List Nat) ≠ [] →
          ∃ (front : List (List Nat)) (c : List Nat), cs = front ++ [c]
          ∧ (∀ x ∈ front, x.length = 2) ∧ 1 ≤ c.length ∧ c.length ≤ 2)
      ∧ (([1, 2, 3, 4, 5, 6, 7, 8] : List Nat).length < 2 →
          ([1, 2, 3, 4, 5, 6, 7, 8] : List Nat) ≠ [] → cs = [[1, 2, 3, 4, 5, 6, 7, 8]]) :=
  divide_spec Nat [1, 2, 3, 4, 5, 6, 7, 8] 2 (by decide)

/-- C9 counterexample: `-1 ≤ 0`, yet `divide` on step `-1` does not fail — it
yields zero chunks (in the source, `range(0, 3, -1)` is empty, so the
generator is exhausted without raising). -/
theorem divide_nonpos_counterexample :
    ((-1 : Int) ≤ 0 ∧ divide ([1, 2, 3] : List Nat) (-1) = some [])
    ∧ ¬ divide ([1, 2, 3] : List Nat) (-1) = none := by
  refine ⟨⟨by decide, by decide⟩, ?_⟩
  intro h
  simp [divide] at h

/-- C9 amended: `divide` fails exactly for size `0` (Python's
`range(0, len, 0)` raises `ValueError`); for a negative size it silently
yields zero chunks, and for a positive size it succeeds. -/
theorem divide_nonpos_spec :
    ∀ (α : Type) (lst : List α) (n : Int),
      (divide lst n = none ↔ n = 0) ∧ (n < 0 → divide lst n = some []) := by
  intro α lst n
  constructor
  · constructor
    · intro h
      by_contra hne
      rw [divide, if_neg hne] at h
      by_cases hlt : n < 0
      · rw [if_pos hlt] at h
        exact Option.noConfusion h
      · rw [if_neg hlt] at h
        exact Option.noConfusion h
    · intro h
      rw [divide, if_pos h]
  · intro h
    have hne : ¬ n = 0 := by omega
    rw [divide, if_neg hne, if_pos h]

/-- C9 amended witness: instantiated at the counterexample input. -/
theorem divide_nonpos_spec_witness :
    divide ([1, 2, 3] : List Nat) (-1) = some [] :=
  (divide_nonpos_spec Nat [1, 2, 3] (-1)).2 (by decide)

end Seller
